import Mathlib

/-!
# Verification of the pipsync reconciliation core

This file is a shallow embedding of the core of `pipsync` (a tool that
syncs `requirements.txt` files with a pipenv project `Pipfile` /
`Pipfile.lock`).  The embedded functions mirror the Python source:

* `Requirement.parse_requirement_line` and `Requirement.from_data` mirror
  the two constructors of the `Requirement` dataclass;
* `Pipfile`, `PipfileLock` and `Processor` model the parsed file contents
  and the `PackageProcessor` policy flags (only the parts that
  `generate_requirements` reads: package-name sets from the Pipfile, the
  lock sections, and the dependency map);
* `generate_requirements` mirrors `PackageProcessor.generate_requirements`.

Python dicts are modelled as association lists with last-binding-wins
lookup (`dGet`), which matches both dict-comprehension overwrite semantics
and the `{**a, **b}` merge used for the version map.  Python sets are
modelled by list membership, and `sorted(set)` by `sortDedup`, an
insertion sort that drops duplicates.  A Python `KeyError` escaping
`generate_requirements` is modelled by an `Option` result of `none`
(`mapOpt` aborts at the first failed lookup, as the list comprehension
does).  The regex `^(?:-e )?git\+.*#egg=(?P<package>.*)$` used with
`re.match` is modelled by `gitEggMatch`: `.` does not match a newline and
`$` matches at the end of the string or just before one final trailing
newline, so a match exists exactly when, after the optional `-e ` and the
mandatory `git+`, the remainder (with one final newline removed) is
newline-free and contains `#egg=`; the greedy `.*` makes the captured
group the text after the last occurrence of `#egg=`.
-/

/-- Lookup in an association list where the binding added last wins,
matching Python dict construction (`{k: v for ...}` overwrites earlier
duplicates) and `{**a, **b}` merge precedence. -/
def dGet {α : Type} : List (String × α) → String → Option α
  | [], _ => none
  | p :: ps, k =>
    match dGet ps k with
    | some v => some v
    | none => if p.1 = k then some p.2 else none

/-- Effectful map over `Option`: the whole result is `none` as soon as one
element fails, modelling a `KeyError` escaping a list comprehension. -/
def mapOpt {α β : Type} (f : α → Option β) : List α → Option (List β)
  | [] => some []
  | x :: xs =>
    match f x with
    | none => none
    | some y =>
      match mapOpt f xs with
      | none => none
      | some ys => some (y :: ys)

/-- Boolean lexicographic comparison of character lists by code point,
the order Python's `sorted` uses on strings.  (Kernel-reducible, unlike
`String.ltb`.) -/
def charListLt : List Char → List Char → Bool
  | [], [] => false
  | [], _ :: _ => true
  | _ :: _, [] => false
  | a :: as, b :: bs => decide (a < b) || (a == b && charListLt as bs)

/-- Boolean string comparison: lexicographic by code point. -/
def strLtB (a b : String) : Bool := charListLt a.data b.data

/-- Insert a string into a strictly sorted list, dropping it when already
present. -/
def insertNoDup (x : String) : List String → List String
  | [] => [x]
  | y :: ys =>
    if x = y then y :: ys
    else if strLtB x y then x :: y :: ys
    else y :: insertNoDup x ys

/-- Sorted, deduplicated list of the elements of `l`: the model of
Python's `sorted(` applied to `set(l))`. -/
def sortDedup (l : List String) : List String := l.foldr insertNoDup []

/-- Strip all trailing newline characters from a character list. -/
def stripAllNL (l : List Char) : List Char :=
  (l.reverse.dropWhile (fun c => c == '\n')).reverse

/-- Strip all trailing newline characters, as Python's `rstrip("\n")`. -/
def rstripNL (s : String) : String := ⟨stripAllNL s.data⟩

/-- Characters before the first occurrence of `sep`, or the whole list
when `sep` does not occur: the model of Python's `split(sep)[0]`. -/
def takeUntilSub (sep : List Char) : List Char → List Char
  | [] => []
  | c :: cs => if sep.isPrefixOf (c :: cs) then [] else c :: takeUntilSub sep cs

/-- Characters after the last occurrence of `sep`, or `none` when `sep`
does not occur: the model of the greedy `.*sep(.*)` capture. -/
def afterLastSub (sep : List Char) : List Char → Option (List Char)
  | [] => if sep.isEmpty then some [] else none
  | c :: cs =>
    match afterLastSub sep cs with
    | some r => some r
    | none => if sep.isPrefixOf (c :: cs) then some ((c :: cs).drop sep.length) else none

/-- Strip a mandatory literal from the front, or fail. -/
def dropPre (p l : List Char) : Option (List Char) :=
  if p.isPrefixOf l then some (l.drop p.length) else none

/-- Does the list contain a newline character? -/
def hasNL (l : List Char) : Bool := l.any (fun c => c == '\n')

/-- Remove one final newline if present, modelling the position where the
regex anchor `$` is allowed to match. -/
def stripFinalNL (l : List Char) : List Char :=
  match l.getLast? with
  | some c => if c = '\n' then l.dropLast else l
  | none => l

/-- The characters of the literal `#egg=` from the VCS regex. -/
def eggSep : List Char := ['#', 'e', 'g', 'g', '=']

/-- The characters of the literal `==` used by the version split. -/
def eqSep : List Char := ['=', '=']

/-- Structured requirement model: a package name together with the exact
requirement line to emit, as the frozen `Requirement` dataclass. -/
structure Requirement where
  package_name : String
  requirement_line : String
deriving DecidableEq

/-- Model of `re.match` for `^(?:-e )?git\+.*#egg=(?P<package>.*)$` with
Python semantics (`.` never matches a newline; `$` matches at the end or
just before one final newline; the greedy `.*` selects the last `#egg=`).
Returns the captured group on success. -/
def gitEggMatch (line : String) : Option String :=
  let r? :=
    match dropPre "-e git+".data line.data with
    | some r => some r
    | none => dropPre "git+".data line.data
  match r? with
  | none => none
  | some r =>
    let r' := stripFinalNL r
    if hasNL r' then none
    else (afterLastSub eggSep r').map (fun cs => (⟨cs⟩ : String))

/-- Create a `Requirement` from a line of a requirements.txt file: the VCS
egg fragment when the line matches the git pattern, otherwise the text
before the first `==` of the newline-stripped line. -/
def Requirement.parse_requirement_line (requirement_line : String) : Requirement :=
  match gitEggMatch requirement_line with
  | some pkg => ⟨rstripNL pkg, rstripNL requirement_line⟩
  | none =>
    ⟨⟨takeUntilSub eqSep (rstripNL requirement_line).data⟩, rstripNL requirement_line⟩

/-- A raw `Pipfile.lock` package entry: the four fields that
`Requirement.from_data` reads.  A missing key is `none`. -/
structure LockEntry where
  version : Option String
  git : Option String
  editable : Option Bool
  ref : Option String
deriving DecidableEq

/-- Python truthiness of `dict.get` on a string field: a missing key and
an empty string are both falsy. -/
def strTruthy : Option String → Option String
  | none => none
  | some s => if s = "" then none else some s

/-- Create a `Requirement` from a `Pipfile.lock` package entry, with the
source's precedence: truthy `version` first, then truthy `git` (with
`-e ` prefix iff `editable` is truthy and `@ref` suffix iff `ref` is
truthy), else the bare package name. -/
def Requirement.from_data (package_name : String) (package_data : LockEntry) : Requirement :=
  match strTruthy package_data.version with
  | some version => ⟨package_name, package_name ++ version⟩
  | none =>
    match strTruthy package_data.git with
    | some git_url =>
      let pfx := if package_data.editable.getD false then "-e " else ""
      let refPart :=
        match strTruthy package_data.ref with
        | some git_ref => "@" ++ git_ref
        | none => ""
      ⟨package_name, pfx ++ "git+" ++ git_url ++ refPart ++ "#egg=" ++ package_name⟩
    | none => ⟨package_name, package_name⟩

/-- Parsed `Pipfile` contents.  `generate_requirements` only ever reads
package names (dict keys), so the version-spec values are dropped. -/
structure Pipfile where
  packages : List String
  dev_packages : List String
deriving DecidableEq

/-- Default package names of the Pipfile. -/
def Pipfile.default_packages (p : Pipfile) : List String := p.packages

/-- All package names: the keys of `{**packages, **dev-packages}`. -/
def Pipfile.all_packages (p : Pipfile) : List String := p.packages ++ p.dev_packages

/-- Parsed `Pipfile.lock` contents: raw entries of the `default` and
`develop` sections. -/
structure PipfileLock where
  defaultEntries : List (String × LockEntry)
  developEntries : List (String × LockEntry)
deriving DecidableEq

/-- Map of default packages to versioned requirement. -/
def PipfileLock.default (L : PipfileLock) : List (String × Requirement) :=
  L.defaultEntries.map (fun p => (p.1, Requirement.from_data p.1 p.2))

/-- Map of develop packages to versioned requirement. -/
def PipfileLock.dev (L : PipfileLock) : List (String × Requirement) :=
  L.developEntries.map (fun p => (p.1, Requirement.from_data p.1 p.2))

/-- The state a `PackageProcessor` carries into `generate_requirements`:
the parsed Pipfile and lock, the cached dependency map from
`pipenv graph --json`, and the three policy flags. -/
structure Processor where
  pipfile : Pipfile
  pipfile_lock : PipfileLock
  dependency_map : List (String × List String)
  force : Bool
  in_place : Bool
  include_dev : Bool
deriving DecidableEq

/-- The active environment: all packages when `include_dev`, else the
default packages. -/
def environmentNames (P : Processor) : List String :=
  if P.include_dev then P.pipfile.all_packages else P.pipfile.default_packages

/-- The lock section merged over the existing requirements: the source
uses `pipfile_lock.dev` when `include_dev`, else `pipfile_lock.default`. -/
def lockSection (P : Processor) : List (String × Requirement) :=
  if P.include_dev then P.pipfile_lock.dev else P.pipfile_lock.default

/-- The dict `{requirement.package_name: requirement for ...}`. -/
def reqMap (l : List Requirement) : List (String × Requirement) :=
  l.map (fun r => (r.package_name, r))

/-- The version map `{**requirements, **lock_section}`: lock bindings win
because `dGet` prefers later bindings. -/
def versionMap (P : Processor) (reqs : List Requirement) : List (String × Requirement) :=
  reqMap reqs ++ lockSection P

/-- Direct dependencies of a package per the dependency map; a missing
package contributes no dependencies (the logged soft-fail). -/
def depsOf (P : Processor) (n : String) : List String :=
  (dGet P.dependency_map n).getD []

/-- `requirements.keys() & set(environment)`: names both listed in the
existing file and declared in the active environment. -/
def rootNames (P : Processor) (reqs : List Requirement) : List String :=
  ((reqMap reqs).map Prod.fst).filter (fun n => decide (n ∈ environmentNames P))

/-- The generator `generate_dependencies(root_requirements)`: each root
followed by its one-hop dependencies. -/
def closureBase (P : Processor) (reqs : List Requirement) : List String :=
  (rootNames P reqs).flatMap (fun n => n :: depsOf P n)

/-- `sorted(full_dependencies)`: the closure set, with the existing keys
unioned in exactly when `in_place` and not `force`. -/
def closureNames (P : Processor) (reqs : List Requirement) : List String :=
  sortDedup
    (if P.in_place && !P.force then
      closureBase P reqs ++ (reqMap reqs).map Prod.fst
    else closureBase P reqs)

/-- `PackageProcessor.generate_requirements`: the sorted closure rendered
through the version map; `none` models the `KeyError` raised when a
closure member is absent from the version map. -/
def generate_requirements (P : Processor) (requirements_list : List Requirement) :
    Option (List String) :=
  mapOpt
    (fun n => (dGet (versionMap P requirements_list) n).map Requirement.requirement_line)
    (closureNames P requirements_list)

/-! ## Order bridge: `charListLt` agrees with the lexicographic order -/

theorem charListLt_iff : ∀ as bs : List Char, charListLt as bs = true ↔ List.Lex (· < ·) as bs
  | [], [] => iff_of_false (by simp [charListLt]) (List.Lex.not_nil_right _ _)
  | [], _ :: _ => iff_of_true rfl List.Lex.nil
  | _ :: _, [] => iff_of_false (by simp [charListLt]) (List.Lex.not_nil_right _ _)
  | a :: as, b :: bs => by
    simp only [charListLt, Bool.or_eq_true, Bool.and_eq_true, decide_eq_true_eq, beq_iff_eq]
    constructor
    · rintro (h | ⟨rfl, h⟩)
      · exact List.Lex.rel h
      · exact List.Lex.cons ((charListLt_iff as bs).mp h)
    · intro h
      cases h with
      | cons h => exact Or.inr ⟨rfl, (charListLt_iff as bs).mpr h⟩
      | rel h => exact Or.inl h

theorem strLtB_iff (a b : String) : strLtB a b = true ↔ a < b := by
  rw [String.lt_iff_toList_lt]
  exact charListLt_iff a.data b.data

theorem lt_of_not_strLtB {x y : String} (hne : ¬x = y) (hlt : ¬strLtB x y = true) : y < x := by
  rcases lt_trichotomy x y with h | h | h
  · exact absurd ((strLtB_iff x y).mpr h) hlt
  · exact absurd h hne
  · exact h

/-! ## Sorted deduplicated lists -/

theorem mem_insertNoDup {a x : String} : ∀ {l : List String},
    a ∈ insertNoDup x l ↔ a = x ∨ a ∈ l
  | [] => by simp [insertNoDup]
  | y :: ys => by
    simp only [insertNoDup]
    split
    · rename_i h
      subst h
      simp only [List.mem_cons]
      constructor
      · exact fun h => Or.inr h
      · rintro (rfl | h)
        · exact Or.inl rfl
        · exact h
    · split
      · simp [List.mem_cons, or_assoc]
      · simp only [List.mem_cons, mem_insertNoDup (l := ys)]
        constructor
        · rintro (rfl | h)
          · exact Or.inr (Or.inl rfl)
          · rcases h with h | h
            · exact Or.inl h
            · exact Or.inr (Or.inr h)
        · rintro (h | h)
          · exact Or.inr (Or.inl h)
          · rcases h with rfl | h
            · exact Or.inl rfl
            · exact Or.inr (Or.inr h)

theorem pairwise_insertNoDup {x : String} : ∀ {l : List String},
    l.Pairwise (· < ·) → (insertNoDup x l).Pairwise (· < ·)
  | [], _ => by simp [insertNoDup]
  | y :: ys, h => by
    rcases List.pairwise_cons.mp h with ⟨hy, hys⟩
    simp only [insertNoDup]
    split
    · exact h
    · rename_i hne
      split
      · rename_i hlt
        refine List.pairwise_cons.mpr ⟨?_, h⟩
        intro b hb
        rcases List.mem_cons.mp hb with rfl | hb
        · exact (strLtB_iff x b).mp hlt
        · exact lt_trans ((strLtB_iff x y).mp hlt) (hy b hb)
      · rename_i hlt
        refine List.pairwise_cons.mpr ⟨?_, pairwise_insertNoDup hys⟩
        intro b hb
        rcases mem_insertNoDup.mp hb with rfl | hb
        · exact lt_of_not_strLtB hne hlt
        · exact hy b hb

theorem sortDedup_pairwise (l : List String) : (sortDedup l).Pairwise (· < ·) := by
  induction l with
  | nil => simp [sortDedup]
  | cons x xs ih => exact pairwise_insertNoDup ih

theorem mem_sortDedup {a : String} : ∀ {l : List String}, a ∈ sortDedup l ↔ a ∈ l
  | [] => by simp [sortDedup]
  | x :: xs => by
    show a ∈ insertNoDup x (sortDedup xs) ↔ _
    rw [mem_insertNoDup]
    simp [mem_sortDedup (l := xs)]

theorem sortDedup_nodup (l : List String) : (sortDedup l).Nodup :=
  (sortDedup_pairwise l).imp ne_of_lt

theorem pairwiseLt_ext : ∀ {l₁ l₂ : List String}, l₁.Pairwise (· < ·) → l₂.Pairwise (· < ·) →
    (∀ x, x ∈ l₁ ↔ x ∈ l₂) → l₁ = l₂
  | [], [], _, _, _ => rfl
  | [], y :: ys, _, _, hm => absurd ((hm y).mpr (List.mem_cons_self y ys)) (List.not_mem_nil y)
  | x :: xs, [], _, _, hm => absurd ((hm x).mp (List.mem_cons_self x xs)) (List.not_mem_nil x)
  | x :: xs, y :: ys, h₁, h₂, hm => by
    rcases List.pairwise_cons.mp h₁ with ⟨hx, hxs⟩
    rcases List.pairwise_cons.mp h₂ with ⟨hy, hys⟩
    have hxy : x = y := by
      rcases List.mem_cons.mp ((hm x).mp (List.mem_cons_self x xs)) with h | h
      · exact h
      · rcases List.mem_cons.mp ((hm y).mpr (List.mem_cons_self y ys)) with h' | h'
        · exact h'.symm
        · exact absurd (lt_trans (hx y h') (hy x h)) (lt_irrefl x)
    subst hxy
    have htl : ∀ a, a ∈ xs ↔ a ∈ ys := by
      intro a
      constructor
      · intro ha
        rcases List.mem_cons.mp ((hm a).mp (List.mem_cons.mpr (Or.inr ha))) with h | h
        · exact absurd (h ▸ hx a ha) (lt_irrefl a)
        · exact h
      · intro ha
        rcases List.mem_cons.mp ((hm a).mpr (List.mem_cons.mpr (Or.inr ha))) with h | h
        · exact absurd (h ▸ hy a ha) (lt_irrefl a)
        · exact h
    rw [pairwiseLt_ext hxs hys htl]

theorem sortDedup_ext {l₁ l₂ : List String} (h : ∀ x, x ∈ l₁ ↔ x ∈ l₂) :
    sortDedup l₁ = sortDedup l₂ :=
  pairwiseLt_ext (sortDedup_pairwise l₁) (sortDedup_pairwise l₂)
    (fun x => by rw [mem_sortDedup, mem_sortDedup]; exact h x)

/-! ## Association-list lookup -/

theorem dGet_mem {α : Type} : ∀ {m : List (String × α)} {k : String} {v : α},
    dGet m k = some v → (k, v) ∈ m
  | [], _, _, h => by simp [dGet] at h
  | p :: ps, k, v, h => by
    rcases hps : dGet ps k with _ | w
    · simp only [dGet, hps] at h
      split at h
      · rename_i hk
        cases h
        subst hk
        exact List.mem_cons_self p ps
      · cases h
    · simp only [dGet, hps] at h
      cases h
      exact List.mem_cons.mpr (Or.inr (dGet_mem hps))

theorem dGet_eq_none_iff {α : Type} : ∀ {m : List (String × α)} {k : String},
    dGet m k = none ↔ ∀ q ∈ m, q.1 ≠ k
  | [], k => by simp [dGet]
  | p :: ps, k => by
    rcases hps : dGet ps k with _ | w
    · simp only [dGet, hps]
      split
      · rename_i hk
        constructor
        · intro h
          cases h
        · intro h
          exact absurd hk (h p (List.mem_cons_self p ps))
      · rename_i hk
        constructor
        · intro _ q hq
          rcases List.mem_cons.mp hq with rfl | hq
          · exact hk
          · exact (dGet_eq_none_iff (m := ps)).mp hps q hq
        · intro _
          rfl
    · simp only [dGet, hps]
      constructor
      · intro h
        cases h
      · intro h
        exact absurd rfl (h (k, w) (List.mem_cons.mpr (Or.inr (dGet_mem hps))))

theorem dGet_append_some {α : Type} {m₁ m₂ : List (String × α)} {k : String} {v : α}
    (h : dGet m₂ k = some v) : dGet (m₁ ++ m₂) k = some v := by
  induction m₁ with
  | nil => simpa using h
  | cons p ps ih =>
    rw [List.cons_append]
    simp only [dGet, ih]

theorem dGet_append_none {α : Type} {m₁ m₂ : List (String × α)} {k : String}
    (h : dGet m₂ k = none) : dGet (m₁ ++ m₂) k = dGet m₁ k := by
  induction m₁ with
  | nil => simpa using h
  | cons p ps ih =>
    rw [List.cons_append]
    simp only [dGet, ih]

theorem dGet_nodup_mem {α : Type} : ∀ {m : List (String × α)} {k : String} {v : α},
    (m.map Prod.fst).Nodup → (k, v) ∈ m → dGet m k = some v
  | [], _, _, _, h => absurd h (List.not_mem_nil _)
  | p :: ps, k, v, hn, h => by
    rw [List.map_cons] at hn
    rcases List.pairwise_cons.mp hn with ⟨hp, hps⟩
    rcases List.mem_cons.mp h with heq | h
    · have hk : p.1 = k := (congrArg Prod.fst heq).symm
      have hnone : dGet ps k = none := by
        rw [dGet_eq_none_iff]
        intro q hq hqk
        exact hp q.1 (List.mem_map.mpr ⟨q, hq, rfl⟩) (hk ▸ hqk.symm)
      simp only [dGet, hnone, if_pos hk]
      rw [show p.2 = v from congrArg Prod.snd heq.symm]
    · simp only [dGet, dGet_nodup_mem hps h]

theorem dGet_perm {α : Type} {m₁ m₂ : List (String × α)} (hp : m₁.Perm m₂)
    (hn : (m₁.map Prod.fst).Nodup) (k : String) : dGet m₁ k = dGet m₂ k := by
  have hn₂ : (m₂.map Prod.fst).Nodup := ((hp.map Prod.fst).nodup_iff).mp hn
  rcases h : dGet m₁ k with _ | v
  · rcases h₂ : dGet m₂ k with _ | w
    · rfl
    · exact absurd rfl ((dGet_eq_none_iff.mp h) (k, w) (hp.mem_iff.mpr (dGet_mem h₂)))
  · exact (dGet_nodup_mem hn₂ (hp.mem_iff.mp (dGet_mem h))).symm

/-! ## `mapOpt` -/

theorem mapOpt_eq_some_iff {α β : Type} {f : α → Option β} :
    ∀ {l : List α} {out : List β},
      mapOpt f l = some out ↔ List.Forall₂ (fun x y => f x = some y) l out
  | [], out => by
    constructor
    · intro h
      cases h
      exact List.Forall₂.nil
    · intro h
      cases h
      rfl
  | x :: xs, out => by
    rw [mapOpt]
    constructor
    · intro h
      rcases hx : f x with _ | y
      · rw [hx] at h
        cases h
      · rw [hx] at h
        rcases hxs : mapOpt f xs with _ | ys
        · rw [hxs] at h
          cases h
        · rw [hxs] at h
          cases h
          exact List.Forall₂.cons hx (mapOpt_eq_some_iff.mp hxs)
    · intro h
      cases h with
      | cons hx htl =>
        rw [hx, mapOpt_eq_some_iff.mpr htl]

theorem mapOpt_ext {α β : Type} {f g : α → Option β} :
    ∀ {l : List α}, (∀ x ∈ l, f x = g x) → mapOpt f l = mapOpt g l
  | [], _ => rfl
  | x :: xs, h => by
    rw [mapOpt, mapOpt, h x (List.mem_cons_self x xs),
      mapOpt_ext (fun y hy => h y (List.mem_cons.mpr (Or.inr hy)))]

theorem mapOpt_none {α β : Type} {f : α → Option β} :
    ∀ {l : List α} {x : α}, x ∈ l → f x = none → mapOpt f l = none
  | [], _, h, _ => absurd h (List.not_mem_nil _)
  | y :: ys, x, h, hx => by
    rw [mapOpt]
    rcases List.mem_cons.mp h with rfl | h
    · rw [hx]
    · rcases hy : f y with _ | v
      · rfl
      · rw [mapOpt_none h hx]

theorem forall₂_mem_left {α β : Type} {R : α → β → Prop} :
    ∀ {l₁ : List α} {l₂ : List β}, List.Forall₂ R l₁ l₂ → ∀ {x}, x ∈ l₁ → ∃ y ∈ l₂, R x y
  | [], _, _, x, h => absurd h (List.not_mem_nil x)
  | a :: as, _, List.Forall₂.cons hab htl, x, h => by
    rcases List.mem_cons.mp h with rfl | h
    · exact ⟨_, List.mem_cons_self _ _, hab⟩
    · rcases forall₂_mem_left htl h with ⟨y, hy, hr⟩
      exact ⟨y, List.mem_cons.mpr (Or.inr hy), hr⟩

theorem forall₂_map_right_eq {α β : Type} {R : α → β → Prop} {g : β → α} :
    ∀ {l₁ : List α} {l₂ : List β}, List.Forall₂ R l₁ l₂ → (∀ x y, R x y → g y = x) →
      l₂.map g = l₁
  | [], _, List.Forall₂.nil, _ => rfl
  | a :: as, _, List.Forall₂.cons hab htl, h => by
    rw [List.map_cons, h a _ hab, forall₂_map_right_eq htl h]

/-! ## String-matching lemmas -/

theorem isPrefixOf_append_self : ∀ a b : List Char, (a.isPrefixOf (a ++ b)) = true
  | [], _ => List.isPrefixOf_nil_left
  | c :: cs, b => by
    rw [List.cons_append, List.isPrefixOf_cons₂, isPrefixOf_append_self cs b]
    simp

theorem mem_of_isPrefixOf {p l : List Char} (h : p.isPrefixOf l = true) {c : Char}
    (hc : c ∈ p) : c ∈ l :=
  (List.isPrefixOf_iff_prefix.mp h).subset hc

theorem dropPre_append (p rest : List Char) : dropPre p (p ++ rest) = some rest := by
  rw [dropPre, if_pos (isPrefixOf_append_self p rest), List.drop_left]

theorem dropPre_sub {p l r : List Char} (h : dropPre p l = some r) : r ⊆ l := by
  rw [dropPre] at h
  split at h
  · cases h
    exact List.drop_subset _ l
  · cases h

theorem afterLastSub_eq_none {sep : List Char} (hsep : sep ≠ []) :
    ∀ {l : List Char}, (∀ a b, l = a ++ b → sep.isPrefixOf b = false) →
      afterLastSub sep l = none
  | [], _ => by
    rcases sep with _ | ⟨c, cs⟩
    · exact absurd rfl hsep
    · rfl
  | c :: cs, h => by
    have hrec : afterLastSub sep cs = none :=
      afterLastSub_eq_none hsep (fun a b hab => h (c :: a) b (by rw [hab, List.cons_append]))
    simp only [afterLastSub, hrec, h [] (c :: cs) rfl]
    rfl

theorem afterLastSub_exact {sep ys : List Char} (hsep : sep ≠ [])
    (h : ∀ a b, sep ++ ys = a ++ b → a ≠ [] → sep.isPrefixOf b = false) :
    afterLastSub sep (sep ++ ys) = some ys := by
  rcases hd : sep with _ | ⟨c, cs⟩
  · exact absurd hd hsep
  · subst hd
    have hrec : afterLastSub (c :: cs) (cs ++ ys) = none := by
      apply afterLastSub_eq_none (List.cons_ne_nil c cs)
      intro a b hab
      exact h (c :: a) b (by rw [List.cons_append, hab, List.cons_append])
        (List.cons_ne_nil c a)
    have hpre : ((c :: cs).isPrefixOf (c :: (cs ++ ys))) = true := by
      have := isPrefixOf_append_self (c :: cs) ys
      rwa [List.cons_append] at this
    rw [List.cons_append]
    simp only [afterLastSub, hrec, hpre]
    rw [if_true]
    congr 1
    rw [List.length_cons, List.drop_succ_cons, List.drop_left]

theorem afterLastSub_append {sep ys : List Char} (hsep : sep ≠ [])
    (h : ∀ a b, sep ++ ys = a ++ b → a ≠ [] → sep.isPrefixOf b = false) :
    ∀ xs : List Char, afterLastSub sep (xs ++ (sep ++ ys)) = some ys
  | [] => by
    rw [List.nil_append]
    exact afterLastSub_exact hsep h
  | x :: xs => by
    rw [List.cons_append]
    simp only [afterLastSub, afterLastSub_append hsep h xs]

theorem eggSep_no_late {ys : List Char} (hy : '#' ∉ ys) :
    ∀ a b, eggSep ++ ys = a ++ b → a ≠ [] → eggSep.isPrefixOf b = false := by
  intro a b heq ha
  rcases a with _ | ⟨c, a2⟩
  · exact absurd rfl ha
  · cases hb : eggSep.isPrefixOf b
    · rfl
    · exfalso
      have hmem : '#' ∈ b := mem_of_isPrefixOf hb (by decide)
      have heq2 := heq
      rw [show eggSep = '#' :: ['e', 'g', 'g', '='] from rfl, List.cons_append,
        List.cons_append] at heq2
      injection heq2 with h1 h2
      have hmm : '#' ∈ a2.append b := List.mem_append_right a2 hmem
      rw [← h2] at hmm
      rcases List.mem_cons.mp hmm with h3 | h3
      · exact absurd h3 (by decide)
      · rcases List.mem_append.mp h3 with h4 | h4
        · exact absurd h4 (by decide)
        · exact hy h4

theorem eggSep_afterLast_none {l : List Char} (h : '#' ∉ l) :
    afterLastSub eggSep l = none := by
  apply afterLastSub_eq_none (by decide)
  intro a b hab
  cases hb : eggSep.isPrefixOf b
  · rfl
  · exact absurd (hab ▸ List.mem_append_right a (mem_of_isPrefixOf hb (by decide))) h

theorem hasNL_eq_false : ∀ {l : List Char}, '\n' ∉ l → hasNL l = false
  | [], _ => rfl
  | c :: cs, h => by
    show ((c == '\n') || hasNL cs) = false
    rw [hasNL_eq_false (fun hm => h (List.mem_cons.mpr (Or.inr hm))), Bool.or_false]
    exact beq_eq_false_iff_ne.mpr (fun hc => h (List.mem_cons.mpr (Or.inl hc.symm)))

theorem stripFinalNL_subset (l : List Char) : stripFinalNL l ⊆ l := by
  rcases h : l.getLast? with _ | c
  · simp [stripFinalNL, h]
  · simp only [stripFinalNL, h]
    split
    · exact List.dropLast_subset l
    · exact fun _ hx => hx

theorem stripFinalNL_of_no_nl {l : List Char} (h : '\n' ∉ l) : stripFinalNL l = l := by
  rcases hg : l.getLast? with _ | c
  · simp [stripFinalNL, hg]
  · simp only [stripFinalNL, hg]
    exact if_neg (fun hc : c = '\n' => h (hc ▸ List.mem_of_getLast?_eq_some hg))

theorem stripAllNL_subset (l : List Char) : stripAllNL l ⊆ l := by
  intro x hx
  rw [stripAllNL, List.mem_reverse] at hx
  exact List.mem_reverse.mp ((List.dropWhile_sublist _).subset hx)

theorem stripAllNL_of_no_nl {l : List Char} (h : '\n' ∉ l) : stripAllNL l = l := by
  rw [stripAllNL]
  rcases hl : l.reverse with _ | ⟨c, t⟩
  · simp [List.reverse_eq_nil_iff.mp hl]
  · have hc : c ∈ l := List.mem_reverse.mp (hl ▸ List.mem_cons_self c t)
    simp only [List.dropWhile_cons]
    rw [if_neg (fun hb : (c == '\n') = true => h (beq_iff_eq.mp hb ▸ hc)), ← hl,
      List.reverse_reverse]

theorem stripAllNL_append_block {c : Char} (hc : ¬c = '\n') (u t : List Char) :
    stripAllNL (u ++ c :: t) = u ++ c :: stripAllNL t := by
  rw [stripAllNL, stripAllNL, List.reverse_append, List.reverse_cons, List.append_assoc,
    List.dropWhile_append]
  have hdc : (([c] ++ u.reverse : List Char).dropWhile (fun x => x == '\n')) =
      [c] ++ u.reverse := by
    rw [show ([c] ++ u.reverse : List Char) = c :: u.reverse from rfl]
    simp only [List.dropWhile_cons]
    rw [if_neg (fun hb : (c == '\n') = true => hc (beq_iff_eq.mp hb))]
  split
  · rename_i hemp
    rw [List.isEmpty_iff] at hemp
    rw [hdc, hemp]
    simp
  · rw [List.reverse_append, List.reverse_append, List.reverse_reverse]
    simp

theorem takeUntil_eqSep_append : ∀ {a : List Char}, '=' ∉ a →
    ∀ t, takeUntilSub eqSep (a ++ '=' :: '=' :: t) = a
  | [], _, t => by
    rw [List.nil_append, takeUntilSub,
      if_pos (show (eqSep.isPrefixOf ('=' :: '=' :: t)) = true from
        isPrefixOf_append_self eqSep t)]
  | c :: a2, h, t => by
    have hpre : (eqSep.isPrefixOf (c :: (a2 ++ '=' :: '=' :: t))) = false := by
      show (('=' == c) && _) = false
      rw [beq_eq_false_iff_ne.mpr (fun he => h (List.mem_cons.mpr (Or.inl he))),
        Bool.false_and]
    rw [List.cons_append]
    simp only [takeUntilSub, hpre]
    rw [takeUntil_eqSep_append (fun hm => h (List.mem_cons.mpr (Or.inr hm))) t]
    rfl

theorem takeUntil_eq_self : ∀ {l : List Char}, '=' ∉ l → takeUntilSub eqSep l = l
  | [], _ => rfl
  | c :: cs, h => by
    have hpre : (eqSep.isPrefixOf (c :: cs)) = false := by
      show (('=' == c) && _) = false
      rw [beq_eq_false_iff_ne.mpr (fun he => h (List.mem_cons.mpr (Or.inl he))),
        Bool.false_and]
    simp only [takeUntilSub, hpre]
    rw [takeUntil_eq_self (fun hm => h (List.mem_cons.mpr (Or.inr hm)))]
    rfl

theorem gitEggMatch_none_of_no_hash (line : String) (h : '#' ∉ line.data) :
    gitEggMatch line = none := by
  have main : ∀ r : List Char, r ⊆ line.data →
      (if hasNL (stripFinalNL r) then none
        else (afterLastSub eggSep (stripFinalNL r)).map
          (fun cs => (⟨cs⟩ : String))) = none := by
    intro r hr
    have hr' : '#' ∉ stripFinalNL r := fun hx => h (hr (stripFinalNL_subset r hx))
    cases hnl : hasNL (stripFinalNL r)
    · rw [if_neg Bool.false_ne_true, eggSep_afterLast_none hr']
      rfl
    · rw [if_pos rfl]
  rcases h1 : dropPre "-e git+".data line.data with _ | r
  · rcases h2 : dropPre "git+".data line.data with _ | r
    · simp only [gitEggMatch, h1, h2]
    · simp only [gitEggMatch, h1, h2]
      exact main r (dropPre_sub h2)
  · simp only [gitEggMatch, h1]
    exact main r (dropPre_sub h1)

theorem gitEggMatch_eq (line : String) :
    gitEggMatch line =
      match (match dropPre "-e git+".data line.data with
             | some r => some r
             | none => dropPre "git+".data line.data) with
      | none => none
      | some r =>
        if hasNL (stripFinalNL r) then none
        else (afterLastSub eggSep (stripFinalNL r)).map (fun cs => (⟨cs⟩ : String)) := rfl

theorem gitEggMatch_build (e : Bool) (mid n : String)
    (hmid : '\n' ∉ mid.data) (hn1 : '\n' ∉ n.data) (hn2 : '#' ∉ n.data) :
    gitEggMatch ((if e then "-e " else "") ++ "git+" ++ mid ++ "#egg=" ++ n) = some n := by
  have hrest : '\n' ∉ mid.data ++ (eggSep ++ n.data) := by
    intro hx
    rcases List.mem_append.mp hx with hx | hx
    · exact hmid hx
    · rcases List.mem_append.mp hx with hx | hx
      · exact absurd hx (by decide)
      · exact hn1 hx
  have hafter : afterLastSub eggSep (mid.data ++ (eggSep ++ n.data)) = some n.data :=
    afterLastSub_append (by decide) (eggSep_no_late hn2) mid.data
  have hfinish :
      (if hasNL (stripFinalNL (mid.data ++ (eggSep ++ n.data))) then none
        else (afterLastSub eggSep (stripFinalNL (mid.data ++ (eggSep ++ n.data)))).map
          (fun cs => (⟨cs⟩ : String))) = some n := by
    rw [stripFinalNL_of_no_nl hrest, hasNL_eq_false hrest, if_neg Bool.false_ne_true,
      hafter]
    rfl
  cases e
  · rw [show ((if false then "-e " else "") : String) = "" from rfl]
    have hdata : (("" : String) ++ "git+" ++ mid ++ "#egg=" ++ n).data =
        "git+".data ++ (mid.data ++ (eggSep ++ n.data)) := by
      simp only [String.data_append, List.append_assoc]
      rfl
    have h1 : dropPre "-e git+".data (("" : String) ++ "git+" ++ mid ++ "#egg=" ++ n).data =
        none := by
      have hpre : (("-e git+" : String).data.isPrefixOf
          (("git+" : String).data ++ (mid.data ++ (eggSep ++ n.data)))) = false := by
        show (('-' == 'g') && _) = false
        rw [show (('-' : Char) == 'g') = false from by decide, Bool.false_and]
      rw [hdata, dropPre, if_neg (by rw [hpre]; exact Bool.false_ne_true)]
    have h2 : dropPre "git+".data (("" : String) ++ "git+" ++ mid ++ "#egg=" ++ n).data =
        some (mid.data ++ (eggSep ++ n.data)) := by
      rw [hdata]
      exact dropPre_append _ _
    rw [gitEggMatch_eq, h1, h2]
    exact hfinish
  · rw [show ((if true then "-e " else "") : String) = "-e " from rfl]
    have hdata : (("-e " : String) ++ "git+" ++ mid ++ "#egg=" ++ n).data =
        "-e git+".data ++ (mid.data ++ (eggSep ++ n.data)) := by
      simp only [String.data_append, List.append_assoc]
      rfl
    have h1 : dropPre "-e git+".data
        (("-e " : String) ++ "git+" ++ mid ++ "#egg=" ++ n).data =
        some (mid.data ++ (eggSep ++ n.data)) := by
      rw [hdata]
      exact dropPre_append _ _
    rw [gitEggMatch_eq, h1]
    exact hfinish

theorem rstripNL_of_no_nl {s : String} (h : '\n' ∉ s.data) : rstripNL s = s := by
  show (⟨stripAllNL s.data⟩ : String) = s
  rw [stripAllNL_of_no_nl h]

theorem parse_requirement_vcs (e : Bool) (mid n : String)
    (hmid : '\n' ∉ mid.data) (hn1 : '\n' ∉ n.data) (hn2 : '#' ∉ n.data) :
    Requirement.parse_requirement_line
        ((if e then "-e " else "") ++ "git+" ++ mid ++ "#egg=" ++ n) =
      ⟨n, (if e then "-e " else "") ++ "git+" ++ mid ++ "#egg=" ++ n⟩ := by
  have hpfx : '\n' ∉ ((if e then "-e " else "") : String).data := by
    cases e
    · rw [show ((if false then "-e " else "") : String) = "" from rfl]
      exact by decide
    · rw [show ((if true then "-e " else "") : String) = "-e " from rfl]
      exact by decide
  have hline : '\n' ∉ ((if e then "-e " else "") ++ "git+" ++ mid ++ "#egg=" ++ n).data := by
    simp only [String.data_append]
    intro hx
    rcases List.mem_append.mp hx with hx | hx
    · rcases List.mem_append.mp hx with hx | hx
      · rcases List.mem_append.mp hx with hx | hx
        · rcases List.mem_append.mp hx with hx | hx
          · exact hpfx hx
          · exact absurd hx (by decide)
        · exact hmid hx
      · exact absurd hx (by decide)
    · exact hn1 hx
  simp only [Requirement.parse_requirement_line, gitEggMatch_build e mid n hmid hn1 hn2]
  rw [rstripNL_of_no_nl hn1, rstripNL_of_no_nl hline]

theorem parse_version_split (a b : String) (ha1 : '#' ∉ a.data) (hb1 : '#' ∉ b.data)
    (ha2 : '=' ∉ a.data) :
    (Requirement.parse_requirement_line (a ++ "==" ++ b)).package_name = a := by
  have hnoh : '#' ∉ (a ++ "==" ++ b).data := by
    simp only [String.data_append]
    intro hx
    rcases List.mem_append.mp hx with hx | hx
    · rcases List.mem_append.mp hx with hx | hx
      · exact ha1 hx
      · exact absurd hx (by decide)
    · exact hb1 hx
  simp only [Requirement.parse_requirement_line, gitEggMatch_none_of_no_hash _ hnoh]
  show (⟨takeUntilSub eqSep (rstripNL (a ++ "==" ++ b)).data⟩ : String) = a
  have hdata : (rstripNL (a ++ "==" ++ b)).data = a.data ++ '=' :: '=' :: stripAllNL b.data := by
    show stripAllNL ((a ++ "==" ++ b).data) = _
    rw [String.data_append, String.data_append,
      show ("==" : String).data = ['=', '='] from rfl, List.append_assoc,
      show ((['=', '='] : List Char) ++ b.data) = '=' :: '=' :: b.data from rfl,
      show (a.data ++ '=' :: '=' :: b.data : List Char) = (a.data ++ ['=']) ++ '=' :: b.data
        from by rw [List.append_assoc]; rfl,
      stripAllNL_append_block (by decide) (a.data ++ ['=']) b.data, List.append_assoc]
    rfl
  rw [hdata, takeUntil_eqSep_append ha2]

theorem parse_no_eq (s : String) (h1 : '#' ∉ s.data) (h2 : '=' ∉ s.data) :
    Requirement.parse_requirement_line s = ⟨rstripNL s, rstripNL s⟩ := by
  simp only [Requirement.parse_requirement_line, gitEggMatch_none_of_no_hash s h1]
  rw [show takeUntilSub eqSep (rstripNL s).data = (rstripNL s).data from
    takeUntil_eq_self (fun hm => h2 (stripAllNL_subset s.data hm))]

/-! ## Pipeline lemmas -/

theorem reqMap_keys (l : List Requirement) :
    (reqMap l).map Prod.fst = l.map Requirement.package_name := by
  simp only [reqMap, List.map_map]
  rfl

theorem mem_rootNames {P : Processor} {reqs : List Requirement} {n : String} :
    n ∈ rootNames P reqs ↔
      n ∈ reqs.map Requirement.package_name ∧ n ∈ environmentNames P := by
  rw [rootNames, reqMap_keys]
  simp [List.mem_filter]

theorem mem_closureBase {P : Processor} {reqs : List Requirement} {x : String} :
    x ∈ closureBase P reqs ↔ ∃ n ∈ rootNames P reqs, x = n ∨ x ∈ depsOf P n := by
  simp [closureBase, List.mem_flatMap, List.mem_cons]

theorem closureNames_strict (P : Processor) (reqs : List Requirement)
    (h : (P.in_place && !P.force) = false) :
    closureNames P reqs = sortDedup (closureBase P reqs) := by
  rw [closureNames, h]
  rfl

theorem closureNames_additive (P : Processor) (reqs : List Requirement)
    (h : (P.in_place && !P.force) = true) :
    closureNames P reqs =
      sortDedup (closureBase P reqs ++ (reqMap reqs).map Prod.fst) := by
  rw [closureNames, h]
  rfl

theorem closureNames_pairwise (P : Processor) (reqs : List Requirement) :
    (closureNames P reqs).Pairwise (· < ·) := by
  rw [closureNames]
  exact sortDedup_pairwise _

theorem from_data_name (n : String) (d : LockEntry) :
    (Requirement.from_data n d).package_name = n := by
  cases h1 : strTruthy d.version with
  | some v => simp [Requirement.from_data, h1]
  | none =>
    cases h2 : strTruthy d.git with
    | some u => simp [Requirement.from_data, h1, h2]
    | none => simp [Requirement.from_data, h1, h2]

theorem versionMap_key {P : Processor} {reqs : List Requirement} :
    ∀ p ∈ versionMap P reqs, p.2.package_name = p.1 := by
  intro p hp
  rcases List.mem_append.mp hp with h | h
  · rcases List.mem_map.mp h with ⟨r, _, rfl⟩
    rfl
  · rw [lockSection] at h
    by_cases hd : P.include_dev
    · rw [if_pos hd, PipfileLock.dev] at h
      rcases List.mem_map.mp h with ⟨q, _, rfl⟩
      exact from_data_name q.1 q.2
    · rw [if_neg hd, PipfileLock.default] at h
      rcases List.mem_map.mp h with ⟨q, _, rfl⟩
      exact from_data_name q.1 q.2

theorem dGet_versionMap_key {P : Processor} {reqs : List Requirement} {n : String}
    {r : Requirement} (h : dGet (versionMap P reqs) n = some r) :
    r.package_name = n :=
  versionMap_key (n, r) (dGet_mem h)

theorem exists_reqs_of_forall₂ {P : Processor} {reqs : List Requirement} :
    ∀ {ns out : List String},
      List.Forall₂
        (fun n y =>
          (dGet (versionMap P reqs) n).map Requirement.requirement_line = some y) ns out →
      ∃ rs : List Requirement, out = rs.map Requirement.requirement_line ∧
        rs.map Requirement.package_name = ns
  | [], _, List.Forall₂.nil => ⟨[], rfl, rfl⟩
  | n :: ns, _, List.Forall₂.cons hab htl => by
    rcases exists_reqs_of_forall₂ htl with ⟨rs, h1, h2⟩
    simp only at hab
    rcases hvm : dGet (versionMap P reqs) n with _ | r
    · rw [hvm] at hab
      cases hab
    · rw [hvm] at hab
      simp only [Option.map_some'] at hab
      cases hab
      exact ⟨r :: rs, by rw [List.map_cons, h1], by
        rw [List.map_cons, h2, dGet_versionMap_key hvm]⟩

theorem depsOf_trans {P : Processor}
    (hg : ∀ p ∈ P.dependency_map, ∀ b ∈ p.2, ∀ c ∈ depsOf P b, c ∈ p.2) :
    ∀ a b c, b ∈ depsOf P a → c ∈ depsOf P b → c ∈ depsOf P a := by
  intro a b c hb hc
  rcases h : dGet P.dependency_map a with _ | l
  · simp only [depsOf, h, Option.getD_none] at hb
    exact absurd hb (List.not_mem_nil b)
  · simp only [depsOf, h, Option.getD_some] at hb ⊢
    exact hg (a, l) (dGet_mem h) b hb c hc

/-! ## Claims -/

/-- C10: for every manifest, lock, dependency graph, and policy-flag
combination, `generate_requirements` applied to an empty
existing-requirements list returns the empty list. -/
theorem c10_empty_input (P : Processor) : generate_requirements P [] = some [] := by
  have hcl : closureNames P [] = [] := by
    simp only [closureNames, closureBase, rootNames, reqMap]
    cases h : P.in_place && !P.force <;> simp [h, sortDedup]
  simp only [generate_requirements, hcl]
  rfl

/-- C4: with `force` or without `in_place`, every name in the computed
closure (hence every package whose line is emitted) is a root
(existing ∩ environment), a one-hop dependency of a root, or declared in
the active environment. -/
theorem c4_pruning (P : Processor) (reqs : List Requirement)
    (h : P.force = true ∨ P.in_place = false) :
    ∀ n ∈ closureNames P reqs,
      n ∈ rootNames P reqs ∨ (∃ r ∈ rootNames P reqs, n ∈ depsOf P r) ∨
        n ∈ environmentNames P := by
  intro n hn
  have hcond : (P.in_place && !P.force) = false := by
    rcases h with h | h <;> simp [h]
  rw [closureNames_strict P reqs hcond, mem_sortDedup] at hn
  rcases mem_closureBase.mp hn with ⟨m, hm, rfl | hd⟩
  · exact Or.inl hm
  · exact Or.inr (Or.inl ⟨m, hm, hd⟩)

/-- C4 witness: with `force=true`, the one-hop dependency `b` of root `a`
is in the closure and satisfies the disjunction. -/
theorem c4_witness :
    "b" ∈ closureNames ⟨⟨["a"], []⟩, ⟨[], []⟩, [("a", ["b"])], true, false, false⟩
        [⟨"a", "a==1"⟩] ∧
      ("b" ∈ rootNames ⟨⟨["a"], []⟩, ⟨[], []⟩, [("a", ["b"])], true, false, false⟩
          [⟨"a", "a==1"⟩] ∨
        (∃ r ∈ rootNames ⟨⟨["a"], []⟩, ⟨[], []⟩, [("a", ["b"])], true, false, false⟩
            [⟨"a", "a==1"⟩],
          "b" ∈ depsOf ⟨⟨["a"], []⟩, ⟨[], []⟩, [("a", ["b"])], true, false, false⟩ r) ∨
        "b" ∈ environmentNames ⟨⟨["a"], []⟩, ⟨[], []⟩, [("a", ["b"])], true, false, false⟩) :=
  ⟨by decide,
   c4_pruning ⟨⟨["a"], []⟩, ⟨[], []⟩, [("a", ["b"])], true, false, false⟩
     [⟨"a", "a==1"⟩] (Or.inl rfl) "b" (by decide)⟩

/-- C3: with `in_place` and without `force`, the closure contains every
existing package name, and an existing entry whose name the merged lock
section does not know is emitted with its requirement line unchanged. -/
theorem c3_additive (P : Processor) (reqs : List Requirement)
    (h1 : P.in_place = true) (h2 : P.force = false) :
    (∀ r ∈ reqs, r.package_name ∈ closureNames P reqs) ∧
      (∀ out n r, generate_requirements P reqs = some out →
        dGet (reqMap reqs) n = some r → dGet (lockSection P) n = none →
        r.requirement_line ∈ out) := by
  have hcond : (P.in_place && !P.force) = true := by simp [h1, h2]
  have hkeys : ∀ r ∈ reqs, r.package_name ∈ closureNames P reqs := by
    intro r hr
    rw [closureNames_additive P reqs hcond, mem_sortDedup]
    refine List.mem_append.mpr (Or.inr ?_)
    rw [reqMap_keys]
    exact List.mem_map.mpr ⟨r, hr, rfl⟩
  refine ⟨hkeys, ?_⟩
  intro out n r hout hreq hlock
  have hn : n ∈ closureNames P reqs := by
    rcases List.mem_map.mp (dGet_mem hreq) with ⟨q, hq, heq⟩
    have hqn : q.package_name = n := congrArg Prod.fst heq
    exact hqn ▸ hkeys q hq
  have hvm : dGet (versionMap P reqs) n = some r := by
    rw [versionMap, dGet_append_none hlock]
    exact hreq
  simp only [generate_requirements] at hout
  rcases forall₂_mem_left (mapOpt_eq_some_iff.mp hout) hn with ⟨y, hy, hfy⟩
  rw [hvm] at hfy
  simp only [Option.map_some'] at hfy
  cases hfy
  exact hy

/-- C3 witness: the orphan `x==9.9` (absent from manifest, lock and
graph) keeps its line in additive mode. -/
theorem c3_witness :
    (Requirement.mk "x" "x==9.9").package_name ∈
        closureNames ⟨⟨["a"], []⟩, ⟨[], []⟩, [], false, true, false⟩ [⟨"x", "x==9.9"⟩] ∧
      "x==9.9" ∈ ["x==9.9"] :=
  ⟨(c3_additive ⟨⟨["a"], []⟩, ⟨[], []⟩, [], false, true, false⟩ [⟨"x", "x==9.9"⟩]
      rfl rfl).1 ⟨"x", "x==9.9"⟩ (by decide),
   (c3_additive ⟨⟨["a"], []⟩, ⟨[], []⟩, [], false, true, false⟩ [⟨"x", "x==9.9"⟩]
      rfl rfl).2 ["x==9.9"] "x" ⟨"x", "x==9.9"⟩ (by decide) (by decide) (by decide)⟩

/-- C9: a closure name missing from the version map makes
`generate_requirements` fail loudly (the modelled `KeyError`), and a
successful run emits one line per closure member, never dropping any. -/
theorem c9_fail_loud (P : Processor) (reqs : List Requirement) :
    ((∃ n ∈ closureNames P reqs, dGet (versionMap P reqs) n = none) →
      generate_requirements P reqs = none) ∧
      (∀ out, generate_requirements P reqs = some out →
        out.length = (closureNames P reqs).length ∧
        ∀ n ∈ closureNames P reqs,
          ∃ r, dGet (versionMap P reqs) n = some r ∧ r.requirement_line ∈ out) := by
  constructor
  · rintro ⟨n, hn, hnone⟩
    simp only [generate_requirements]
    exact mapOpt_none hn (by rw [hnone]; rfl)
  · intro out hout
    simp only [generate_requirements] at hout
    have hf := mapOpt_eq_some_iff.mp hout
    refine ⟨(List.Forall₂.length_eq hf).symm, ?_⟩
    intro n hn
    rcases forall₂_mem_left hf hn with ⟨y, hy, hfy⟩
    rcases hvm : dGet (versionMap P reqs) n with _ | r
    · rw [hvm] at hfy
      cases hfy
    · rw [hvm] at hfy
      simp only [Option.map_some'] at hfy
      cases hfy
      exact ⟨r, rfl, hy⟩

/-- C9 witness: the one-hop dependency `b` is in the closure but absent
from the version map, so the run fails. -/
theorem c9_witness :
    generate_requirements ⟨⟨["a"], []⟩, ⟨[], []⟩, [("a", ["b"])], false, false, false⟩
      [⟨"a", "a==1"⟩] = none :=
  (c9_fail_loud ⟨⟨["a"], []⟩, ⟨[], []⟩, [("a", ["b"])], false, false, false⟩
    [⟨"a", "a==1"⟩]).1 (by decide)

/-- C1: with `include_dev` the code overlays only the lock's develop
section onto the existing map, not `default ∪ dev` as the claim states.
At this input (existing `a==0.9`; Pipfile declares `a`; lock `default`
pins `a==1.0` and `c==3.0`; graph `a -> [c]`) the claimed overlay would
emit `a==1.0, c==3.0`, but the code cannot resolve `c` and fails with a
`KeyError` (modelled by `none`).  With `include_dev = false` the same
input behaves exactly as the claim describes. -/
theorem c1_dev_version_map_code_behavior :
    generate_requirements
        ⟨⟨["a"], []⟩,
         ⟨[("a", ⟨some "==1.0", none, none, none⟩), ("c", ⟨some "==3.0", none, none, none⟩)],
          []⟩,
         [("a", ["c"])], false, false, true⟩
        [Requirement.parse_requirement_line "a==0.9"] = none ∧
      generate_requirements
        ⟨⟨["a"], []⟩,
         ⟨[("a", ⟨some "==1.0", none, none, none⟩), ("c", ⟨some "==3.0", none, none, none⟩)],
          []⟩,
         [("a", ["c"])], false, false, false⟩
        [Requirement.parse_requirement_line "a==0.9"] = some ["a==1.0", "c==3.0"] := by
  constructor
  · decide
  · decide

/-- C5 counterexample: with two existing entries sharing a package name,
reversing the input list changes which line survives (last write wins in
the dict), so the output is not independent of the order of the input
list as the claim states. -/
theorem c5_counterexample :
    generate_requirements ⟨⟨["a"], []⟩, ⟨[], []⟩, [], false, false, false⟩
        [⟨"a", "a==1"⟩, ⟨"a", "a==2"⟩] ≠
      generate_requirements ⟨⟨["a"], []⟩, ⟨[], []⟩, [], false, false, false⟩
        [⟨"a", "a==2"⟩, ⟨"a", "a==1"⟩] := by decide

/-- C5 (amended): for every processor and existing list — duplicate
package names included — the emitted lines are strictly sorted by the
package name of the requirement they render; and provided the existing
list has pairwise-distinct package names and the dependency graph has
distinct keys, the result is invariant under any reordering of the input
list and of the graph entries. -/
theorem c5_sorted_invariant (P : Processor) (reqs1 : List Requirement) :
    (∀ out, generate_requirements P reqs1 = some out →
      ∃ rs : List Requirement, out = rs.map Requirement.requirement_line ∧
        (rs.map Requirement.package_name).Pairwise (· < ·)) ∧
      ∀ (reqs2 : List Requirement) (g2 : List (String × List String)),
        (reqs1.map Requirement.package_name).Nodup →
        reqs1.Perm reqs2 →
        (P.dependency_map.map Prod.fst).Nodup →
        P.dependency_map.Perm g2 →
        generate_requirements
            ⟨P.pipfile, P.pipfile_lock, g2, P.force, P.in_place, P.include_dev⟩ reqs2 =
          generate_requirements P reqs1 := by
  constructor
  · intro out hout
    simp only [generate_requirements] at hout
    rcases exists_reqs_of_forall₂ (mapOpt_eq_some_iff.mp hout) with ⟨rs, h1, h2⟩
    refine ⟨rs, h1, ?_⟩
    rw [h2]
    exact closureNames_pairwise P reqs1
  · intro reqs2 g2 hn hp hgn hg
    set Q : Processor := ⟨P.pipfile, P.pipfile_lock, g2, P.force, P.in_place, P.include_dev⟩
      with hQ
    have hkeysnodup : ((reqMap reqs1).map Prod.fst).Nodup := by
      rw [reqMap_keys]
      exact hn
    have hdget : ∀ k, dGet (reqMap reqs2) k = dGet (reqMap reqs1) k :=
      fun k => (dGet_perm (hp.map _) hkeysnodup k).symm
    have hdeps : ∀ n, depsOf Q n = depsOf P n := by
      intro n
      show (dGet g2 n).getD [] = (dGet P.dependency_map n).getD []
      rw [dGet_perm hg hgn n]
    have henv : environmentNames Q = environmentNames P := rfl
    have hrootmem : ∀ n, n ∈ rootNames Q reqs2 ↔ n ∈ rootNames P reqs1 := by
      intro n
      rw [mem_rootNames, mem_rootNames, henv]
      exact and_congr_left (fun _ => (hp.map Requirement.package_name).mem_iff.symm)
    have hbasemem : ∀ x, x ∈ closureBase Q reqs2 ↔ x ∈ closureBase P reqs1 := by
      intro x
      rw [mem_closureBase, mem_closureBase]
      constructor
      · rintro ⟨n, hn', hx⟩
        refine ⟨n, (hrootmem n).mp hn', ?_⟩
        rwa [hdeps n] at hx
      · rintro ⟨n, hn', hx⟩
        refine ⟨n, (hrootmem n).mpr hn', ?_⟩
        rwa [hdeps n]
    have hkeymem : ∀ x, x ∈ (reqMap reqs2).map Prod.fst ↔ x ∈ (reqMap reqs1).map Prod.fst :=
      fun x => ((hp.map _).map Prod.fst).mem_iff.symm
    have hclosure : closureNames Q reqs2 = closureNames P reqs1 := by
      cases h : P.in_place && !P.force
      · rw [closureNames_strict Q reqs2 h, closureNames_strict P reqs1 h]
        exact sortDedup_ext hbasemem
      · rw [closureNames_additive Q reqs2 h, closureNames_additive P reqs1 h]
        refine sortDedup_ext (fun x => ?_)
        rw [List.mem_append, List.mem_append]
        exact or_congr (hbasemem x) (hkeymem x)
    have hvm : ∀ k, dGet (versionMap Q reqs2) k = dGet (versionMap P reqs1) k := by
      intro k
      show dGet (reqMap reqs2 ++ lockSection Q) k = dGet (reqMap reqs1 ++ lockSection P) k
      have hls : lockSection Q = lockSection P := rfl
      rw [hls]
      rcases hsec : dGet (lockSection P) k with _ | v
      · rw [dGet_append_none hsec, dGet_append_none hsec, hdget k]
      · rw [dGet_append_some hsec, dGet_append_some hsec]
    simp only [generate_requirements]
    rw [hclosure]
    exact mapOpt_ext (fun n _ => by rw [hvm n])

/-- C5 witness: the sortedness clause at an input with a duplicated
package name, and the reordering-invariance clause on a duplicate-free
input list with permuted graph entries. -/
theorem c5_witness :
    (∃ rs : List Requirement,
        ["a==2"] = rs.map Requirement.requirement_line ∧
          (rs.map Requirement.package_name).Pairwise (· < ·)) ∧
      generate_requirements
          ⟨⟨["a", "b"], []⟩,
           ⟨[("a", ⟨some "==1.0", none, none, none⟩)], []⟩,
           [("b", []), ("a", ["c"])], false, true, false⟩
          [⟨"b", "b==2"⟩, ⟨"a", "a==1"⟩] =
        generate_requirements
          ⟨⟨["a", "b"], []⟩,
           ⟨[("a", ⟨some "==1.0", none, none, none⟩)], []⟩,
           [("a", ["c"]), ("b", [])], false, true, false⟩
          [⟨"a", "a==1"⟩, ⟨"b", "b==2"⟩] :=
  ⟨(c5_sorted_invariant ⟨⟨["a"], []⟩, ⟨[], []⟩, [], false, false, false⟩
      [⟨"a", "a==1"⟩, ⟨"a", "a==2"⟩]).1 ["a==2"] (by decide),
   (c5_sorted_invariant
      ⟨⟨["a", "b"], []⟩, ⟨[("a", ⟨some "==1.0", none, none, none⟩)], []⟩,
       [("a", ["c"]), ("b", [])], false, true, false⟩
      [⟨"a", "a==1"⟩, ⟨"b", "b==2"⟩]).2 [⟨"b", "b==2"⟩, ⟨"a", "a==1"⟩]
      [("b", []), ("a", ["c"])]
      (by decide) (by decide) (by decide) (by decide)⟩

/-- C6: `parse_requirement_line` assigns `package_name` by the VCS
egg-fragment rule when the line matches `(?:-e )?git+...#egg=<name>`,
otherwise by the text before the first `==` (the whole newline-stripped
line without `==`); including the two concrete round-trip examples. -/
theorem c6_parse_rule :
    (Requirement.parse_requirement_line "-e git+https://x/y.git@abc#egg=pkg" =
        ⟨"pkg", "-e git+https://x/y.git@abc#egg=pkg"⟩) ∧
      (Requirement.parse_requirement_line "foo==1.2.3" = ⟨"foo", "foo==1.2.3"⟩) ∧
      (∀ (e : Bool) (url n : String), '\n' ∉ url.data → '\n' ∉ n.data → '#' ∉ n.data →
        Requirement.parse_requirement_line
            ((if e then "-e " else "") ++ "git+" ++ url ++ "#egg=" ++ n) =
          ⟨n, (if e then "-e " else "") ++ "git+" ++ url ++ "#egg=" ++ n⟩) ∧
      (∀ a b : String, '#' ∉ a.data → '#' ∉ b.data → '=' ∉ a.data →
        (Requirement.parse_requirement_line (a ++ "==" ++ b)).package_name = a) ∧
      (∀ s : String, '#' ∉ s.data → '=' ∉ s.data →
        Requirement.parse_requirement_line s = ⟨rstripNL s, rstripNL s⟩) :=
  ⟨by decide, by decide, parse_requirement_vcs, parse_version_split, parse_no_eq⟩

/-- C6 witness: the editable VCS clause applied to a URL that itself
contains a `#`, recovering the egg fragment after the last `#egg=`. -/
theorem c6_witness :
    (('\n' ∉ ("u#v" : String).data) ∧ ('\n' ∉ ("pkg" : String).data) ∧
        ('#' ∉ ("pkg" : String).data)) ∧
      Requirement.parse_requirement_line
          ((if true then "-e " else "") ++ "git+" ++ "u#v" ++ "#egg=" ++ "pkg") =
        ⟨"pkg", (if true then "-e " else "") ++ "git+" ++ "u#v" ++ "#egg=" ++ "pkg"⟩ :=
  ⟨⟨by decide, by decide, by decide⟩,
   c6_parse_rule.2.2.1 true "u#v" "pkg" (by decide) (by decide) (by decide)⟩

/-- C7 counterexample: the entry `{"version": "", "git": "https://x"}`
has a version field present, but the code falls through to the git branch
(Python truthiness), so the line is not `name + version` = `"foo"`. -/
theorem c7_counterexample :
    (LockEntry.mk (some "") (some "https://x") none none).version.isSome = true ∧
      (Requirement.from_data "foo"
          (LockEntry.mk (some "") (some "https://x") none none)).requirement_line ≠
        "foo" ++ "" := by decide

/-- C7 (amended): `from_data` precedence with Python truthiness: a
non-empty `version` gives `name ++ version`; otherwise a non-empty `git`
gives the VCS form with `-e ` prefix iff `editable` is true and `@ref`
suffix iff `ref` is non-empty; otherwise the bare name; including the two
concrete examples. -/
theorem c7_from_data_rule :
    (∀ (n : String) (d : LockEntry) (v : String), strTruthy d.version = some v →
        Requirement.from_data n d = ⟨n, n ++ v⟩) ∧
      (∀ (n : String) (d : LockEntry) (u : String), strTruthy d.version = none →
        strTruthy d.git = some u →
        Requirement.from_data n d =
          ⟨n, (if d.editable.getD false then "-e " else "") ++ "git+" ++ u ++
              (match strTruthy d.ref with
               | some r => "@" ++ r
               | none => "") ++ "#egg=" ++ n⟩) ∧
      (∀ (n : String) (d : LockEntry), strTruthy d.version = none →
        strTruthy d.git = none → Requirement.from_data n d = ⟨n, n⟩) ∧
      Requirement.from_data "foo" ⟨some "==2.0", none, none, none⟩ = ⟨"foo", "foo==2.0"⟩ ∧
      Requirement.from_data "bar" ⟨none, some "https://x", some true, some "main"⟩ =
        ⟨"bar", "-e git+https://x@main#egg=bar"⟩ := by
  refine ⟨?_, ?_, ?_, by decide, by decide⟩
  · intro n d v hv
    simp only [Requirement.from_data, hv]
  · intro n d u hv hg
    simp only [Requirement.from_data, hv, hg]
  · intro n d hv hg
    simp only [Requirement.from_data, hv, hg]

/-- C7 witness: the version clause applied at a concrete entry. -/
theorem c7_witness :
    strTruthy (LockEntry.mk (some "==9.9") none none none).version = some "==9.9" ∧
      Requirement.from_data "p" ⟨some "==9.9", none, none, none⟩ = ⟨"p", "p" ++ "==9.9"⟩ :=
  ⟨by decide, c7_from_data_rule.1 "p" ⟨some "==9.9", none, none, none⟩ "==9.9" (by decide)⟩

/-- C8 counterexample: a lock entry whose version spec does not start
with `==` builds the line `foo>=2.0`, which parses back to the package
name `foo>=2.0`, not `foo`; so the round-trip fails for some entries. -/
theorem c8_counterexample :
    (Requirement.parse_requirement_line
        (Requirement.from_data "foo" ⟨some ">=2.0", none, none, none⟩).requirement_line
      ).package_name ≠ "foo" := by decide

/-- C8 (amended): the round-trip `parse(from_data(name, entry)).package_name
= name` holds for well-formed inputs: the name contains no newline, `#`
or `=`; a (truthy) version spec starts with `==` and contains no `#`; and
a (truthy) git URL or ref contains no newline. -/
theorem c8_roundtrip (n : String) (d : LockEntry)
    (h1 : '\n' ∉ n.data) (h2 : '#' ∉ n.data) (h3 : '=' ∉ n.data)
    (h4 : ∀ v, strTruthy d.version = some v → (∃ w : String, v = "==" ++ w) ∧ '#' ∉ v.data)
    (h5 : ∀ u, strTruthy d.git = some u → '\n' ∉ u.data)
    (h6 : ∀ r, strTruthy d.ref = some r → '\n' ∉ r.data) :
    (Requirement.parse_requirement_line
        (Requirement.from_data n d).requirement_line).package_name = n := by
  cases hv : strTruthy d.version with
  | some v =>
    rcases h4 v hv with ⟨⟨w, rfl⟩, hvh⟩
    have hw : '#' ∉ w.data := by
      intro hm
      apply hvh
      rw [String.data_append]
      exact List.mem_append_right _ hm
    simp only [Requirement.from_data, hv]
    rw [← String.append_assoc]
    exact parse_version_split n w h2 hw h3
  | none =>
    cases hg : strTruthy d.git with
    | some u =>
      have hu : '\n' ∉ u.data := h5 u hg
      cases hr : strTruthy d.ref with
      | some rr =>
        have hrr : '\n' ∉ rr.data := h6 rr hr
        have hmid : '\n' ∉ (u ++ ("@" ++ rr)).data := by
          rw [String.data_append, String.data_append]
          intro hx
          rcases List.mem_append.mp hx with hx | hx
          · exact hu hx
          · rcases List.mem_append.mp hx with hx | hx
            · exact absurd hx (by decide)
            · exact hrr hx
        simp only [Requirement.from_data, hv, hg, hr]
        rw [show ((if d.editable.getD false then "-e " else "") : String) ++ "git+" ++ u ++
            ("@" ++ rr) ++ "#egg=" ++ n =
            (if d.editable.getD false then "-e " else "") ++ "git+" ++ (u ++ ("@" ++ rr)) ++
              "#egg=" ++ n from by rw [String.append_assoc ((if d.editable.getD false
                then "-e " else "") ++ "git+") u ("@" ++ rr)]]
        rw [parse_requirement_vcs (d.editable.getD false) (u ++ ("@" ++ rr)) n hmid h1 h2]
      | none =>
        have hmid : '\n' ∉ (u ++ "").data := by
          rw [String.data_append]
          intro hx
          rcases List.mem_append.mp hx with hx | hx
          · exact hu hx
          · exact absurd hx (by decide)
        simp only [Requirement.from_data, hv, hg, hr]
        rw [show ((if d.editable.getD false then "-e " else "") : String) ++ "git+" ++ u ++
            "" ++ "#egg=" ++ n =
            (if d.editable.getD false then "-e " else "") ++ "git+" ++ (u ++ "") ++
              "#egg=" ++ n from by rw [String.append_assoc ((if d.editable.getD false
                then "-e " else "") ++ "git+") u ""]]
        rw [parse_requirement_vcs (d.editable.getD false) (u ++ "") n hmid h1 h2]
    | none =>
      simp only [Requirement.from_data, hv, hg]
      rw [parse_no_eq n h2 h3]
      show rstripNL n = n
      exact rstripNL_of_no_nl h1

/-- C8 witness: the round-trip at a concrete well-formed version entry. -/
theorem c8_witness :
    (('\n' ∉ ("foo" : String).data) ∧ ('#' ∉ ("foo" : String).data) ∧
        ('=' ∉ ("foo" : String).data)) ∧
      (Requirement.parse_requirement_line
          (Requirement.from_data "foo" ⟨some "==2.0", none, none, none⟩).requirement_line
        ).package_name = "foo" :=
  ⟨⟨by decide, by decide, by decide⟩,
   c8_roundtrip "foo" ⟨some "==2.0", none, none, none⟩ (by decide) (by decide) (by decide)
     (by
       intro v hv
       have hv2 : v = "==2.0" := by
         have : strTruthy (some "==2.0") = some "==2.0" := by decide
         rw [this] at hv
         exact (Option.some.inj hv).symm
       subst hv2
       exact ⟨⟨"2.0", by decide⟩, by decide⟩)
     (fun u hu => Option.noConfusion hu)
     (fun r hr => Option.noConfusion hr)⟩

/-- C2 counterexample: with the one-hop (non-transitively-closed) graph
`a -> [b], b -> [c]` and `b` declared in the manifest, the first strict
run on `[a==0.9]` emits `a, b`; re-running on that output also pulls in
`c`, so the second closure and output differ from the first. -/
theorem c2_counterexample :
    generate_requirements
        ⟨⟨["a", "b"], []⟩,
         ⟨[("a", ⟨some "==1.0", none, none, none⟩), ("b", ⟨some "==2.0", none, none, none⟩),
           ("c", ⟨some "==3.0", none, none, none⟩)], []⟩,
         [("a", ["b"]), ("b", ["c"]), ("c", [])], false, false, false⟩
        [Requirement.parse_requirement_line "a==0.9"] = some ["a==1.0", "b==2.0"] ∧
      generate_requirements
          ⟨⟨["a", "b"], []⟩,
           ⟨[("a", ⟨some "==1.0", none, none, none⟩), ("b", ⟨some "==2.0", none, none, none⟩),
             ("c", ⟨some "==3.0", none, none, none⟩)], []⟩,
           [("a", ["b"]), ("b", ["c"]), ("c", [])], false, false, false⟩
          (["a==1.0", "b==2.0"].map Requirement.parse_requirement_line) ≠
        some ["a==1.0", "b==2.0"] := by decide

/-- C2 (amended): in strict mode, provided every version-map entry
round-trips through the parser (parsing its line yields its key and the
line unchanged) and the dependency graph is transitively closed (each
package's dependency list contains its members' dependency lists),
re-running `generate_requirements` on the Requirements parsed from its
own freshly produced output yields the same output and the same
closure. -/
theorem c2_idempotent (P : Processor) (reqs : List Requirement) (out : List String)
    (hip : P.in_place = false) (_hf : P.force = false)
    (hg : ∀ p ∈ P.dependency_map, ∀ b ∈ p.2, ∀ c ∈ depsOf P b, c ∈ p.2)
    (hrt : ∀ p ∈ versionMap P reqs,
        Requirement.parse_requirement_line p.2.requirement_line = ⟨p.1, p.2.requirement_line⟩)
    (h1 : generate_requirements P reqs = some out) :
    generate_requirements P (out.map Requirement.parse_requirement_line) = some out ∧
      closureNames P (out.map Requirement.parse_requirement_line) = closureNames P reqs := by
  have hcond : (P.in_place && !P.force) = false := by simp [hip]
  simp only [generate_requirements] at h1
  have hf2 : List.Forall₂
      (fun n y => (dGet (versionMap P reqs) n).map Requirement.requirement_line = some y)
      (closureNames P reqs) out := mapOpt_eq_some_iff.mp h1
  have hpt : ∀ n ∈ closureNames P reqs, ∃ r : Requirement,
      dGet (versionMap P reqs) n = some r ∧
      Requirement.parse_requirement_line r.requirement_line = ⟨n, r.requirement_line⟩ ∧
      r.requirement_line ∈ out := by
    intro n hn
    rcases forall₂_mem_left hf2 hn with ⟨y, hy, hfy⟩
    rcases hvm : dGet (versionMap P reqs) n with _ | r
    · rw [hvm] at hfy
      cases hfy
    · rw [hvm] at hfy
      simp only [Option.map_some'] at hfy
      cases hfy
      exact ⟨r, rfl, hrt (n, r) (dGet_mem hvm), hy⟩
  have hkeys2 : (out.map Requirement.parse_requirement_line).map Requirement.package_name
      = closureNames P reqs := by
    have hf3 : List.Forall₂ (fun n y => Requirement.parse_requirement_line y = ⟨n, y⟩)
        (closureNames P reqs) out := by
      refine hf2.imp ?_
      intro a b h
      rcases hvm : dGet (versionMap P reqs) a with _ | r
      · rw [hvm] at h
        cases h
      · rw [hvm] at h
        simp only [Option.map_some'] at h
        cases h
        exact hrt (a, r) (dGet_mem hvm)
    rw [List.map_map]
    exact forall₂_map_right_eq hf3
      (fun x y hxy => by
        show (Requirement.parse_requirement_line y).package_name = x
        rw [hxy])
  have hnodup : (closureNames P reqs).Nodup := (closureNames_pairwise P reqs).imp ne_of_lt
  have hroot2 : ∀ m, m ∈ rootNames P (out.map Requirement.parse_requirement_line) ↔
      (m ∈ closureNames P reqs ∧ m ∈ environmentNames P) := by
    intro m
    rw [mem_rootNames, hkeys2]
  have hbase : ∀ x, x ∈ closureBase P (out.map Requirement.parse_requirement_line) ↔
      x ∈ closureBase P reqs := by
    intro x
    rw [mem_closureBase, mem_closureBase]
    constructor
    · rintro ⟨m, hm, hx⟩
      rcases (hroot2 m).mp hm with ⟨hmc, _⟩
      have hmb : m ∈ closureBase P reqs := by
        rw [closureNames_strict P reqs hcond, mem_sortDedup] at hmc
        exact hmc
      rcases mem_closureBase.mp hmb with ⟨m0, hm0, hmm0⟩
      rcases hx with rfl | hx
      · exact ⟨m0, hm0, hmm0⟩
      · rcases hmm0 with rfl | hmm0
        · exact ⟨m, hm0, Or.inr hx⟩
        · exact ⟨m0, hm0, Or.inr (depsOf_trans hg m0 m x hmm0 hx)⟩
    · rintro ⟨m, hm, hx⟩
      have hm2 : m ∈ rootNames P (out.map Requirement.parse_requirement_line) := by
        rw [hroot2]
        refine ⟨?_, (mem_rootNames.mp hm).2⟩
        rw [closureNames_strict P reqs hcond, mem_sortDedup]
        exact mem_closureBase.mpr ⟨m, hm, Or.inl rfl⟩
      exact ⟨m, hm2, hx⟩
  have hclosure2 : closureNames P (out.map Requirement.parse_requirement_line)
      = closureNames P reqs := by
    rw [closureNames_strict P _ hcond, closureNames_strict P reqs hcond]
    exact sortDedup_ext hbase
  refine ⟨?_, hclosure2⟩
  simp only [generate_requirements]
  rw [hclosure2]
  have hnodup2 :
      ((reqMap (out.map Requirement.parse_requirement_line)).map Prod.fst).Nodup := by
    rw [reqMap_keys, hkeys2]
    exact hnodup
  have hvmagree : ∀ n ∈ closureNames P reqs,
      dGet (versionMap P (out.map Requirement.parse_requirement_line)) n =
        dGet (versionMap P reqs) n := by
    intro n hn
    rcases hpt n hn with ⟨r, hvm, hparse, hmem⟩
    rcases hsec : dGet (lockSection P) n with _ | q
    · have hr_eq : Requirement.parse_requirement_line r.requirement_line = r := by
        rw [hparse, ← dGet_versionMap_key hvm]
      have hmem2 : (n, r) ∈ reqMap (out.map Requirement.parse_requirement_line) := by
        have hmm : Requirement.parse_requirement_line r.requirement_line ∈
            out.map Requirement.parse_requirement_line := List.mem_map_of_mem _ hmem
        rw [hr_eq] at hmm
        simp only [reqMap]
        exact List.mem_map.mpr ⟨r, hmm, by rw [dGet_versionMap_key hvm]⟩
      simp only [versionMap] at hvm ⊢
      rw [dGet_append_none hsec, dGet_nodup_mem hnodup2 hmem2, dGet_append_none hsec]
      rw [dGet_append_none hsec] at hvm
      rw [hvm]
    · simp only [versionMap]
      rw [dGet_append_some hsec, dGet_append_some hsec]
  have hext : mapOpt
      (fun n => (dGet (versionMap P (out.map Requirement.parse_requirement_line)) n).map
        Requirement.requirement_line) (closureNames P reqs) =
      mapOpt (fun n => (dGet (versionMap P reqs) n).map Requirement.requirement_line)
        (closureNames P reqs) :=
    mapOpt_ext (fun n hn => by
      show (dGet (versionMap P (out.map Requirement.parse_requirement_line)) n).map
          Requirement.requirement_line =
        (dGet (versionMap P reqs) n).map Requirement.requirement_line
      rw [hvmagree n hn])
  rw [hext]
  exact h1

/-- C2 witness: with the transitively-closed graph `a -> [b, c]`,
`b -> [c]`, re-running on the first output reproduces it. -/
theorem c2_witness :
    generate_requirements
        ⟨⟨["a", "b"], []⟩,
         ⟨[("a", ⟨some "==1.0", none, none, none⟩), ("b", ⟨some "==2.0", none, none, none⟩),
           ("c", ⟨some "==3.0", none, none, none⟩)], []⟩,
         [("a", ["b", "c"]), ("b", ["c"]), ("c", [])], false, false, false⟩
        (["a==1.0", "b==2.0", "c==3.0"].map Requirement.parse_requirement_line) =
      some ["a==1.0", "b==2.0", "c==3.0"] :=
  (c2_idempotent
    ⟨⟨["a", "b"], []⟩,
     ⟨[("a", ⟨some "==1.0", none, none, none⟩), ("b", ⟨some "==2.0", none, none, none⟩),
       ("c", ⟨some "==3.0", none, none, none⟩)], []⟩,
     [("a", ["b", "c"]), ("b", ["c"]), ("c", [])], false, false, false⟩
    [Requirement.parse_requirement_line "a==0.9"] ["a==1.0", "b==2.0", "c==3.0"]
    rfl rfl (by decide) (by decide) (by decide)).1

example : Requirement.parse_requirement_line "foo==1.2.3" = ⟨"foo", "foo==1.2.3"⟩ := by decide

example : Requirement.parse_requirement_line "-e git+https://x/y.git@abc#egg=pkg" =
    ⟨"pkg", "-e git+https://x/y.git@abc#egg=pkg"⟩ := by decide

example : Requirement.from_data "bar" ⟨none, some "https://x", some true, some "main"⟩ =
    ⟨"bar", "-e git+https://x@main#egg=bar"⟩ := by decide

example :
    generate_requirements
      ⟨⟨["a", "b"], []⟩,
       ⟨[("a", ⟨some "==1.0", none, none, none⟩), ("b", ⟨some "==2.0", none, none, none⟩),
         ("c", ⟨some "==3.0", none, none, none⟩)], []⟩,
       [("a", ["c"]), ("b", [])], false, false, false⟩
      [Requirement.parse_requirement_line "a==0.9", Requirement.parse_requirement_line "b==2.0"]
    = some ["a==1.0", "b==2.0", "c==3.0"] := by decide
